import Mathlib

/-!
Shallow embedding of the trade-sim core (`src/App.tsx`): the `OrderBook`
(price-time-priority matching) and the position/PnL accounting
(`fillPosition`).  Prices and sizes are modelled as exact rationals; the
source's floating-point epsilons (`1e-7` order-removal threshold, `1e-8`
resting / dust-position thresholds) are carried over as rational constants.
JavaScript `Map<number, Order[]>` objects are modelled as association lists
with first-match lookup, replace-or-append `set`, and key-removing `delete`;
every iteration in the source first sorts (or takes max/min of) the key set,
so insertion order of keys is irrelevant to all modelled operations.
-/

namespace TradeSim

inductive Side where
  | buy
  | sell
deriving DecidableEq

inductive OrderKind where
  | limit
  | market
deriving DecidableEq

structure Order where
  id : String
  userId : String
  side : Side
  price : ℚ
  size : ℚ
  time : ℤ
  kind : OrderKind
deriving DecidableEq

structure Trade where
  time : ℤ
  price : ℚ
  size : ℚ
  takerSide : Side
deriving DecidableEq

/-- `const TICK = 0.01`. -/
def TICK : ℚ := 1 / 100

/-- `const roundTick = (p) => Math.round(p / TICK) * TICK`.  JavaScript
`Math.round` rounds half-up (towards `+∞`), which is exactly Mathlib's
`round` on `ℚ`. -/
def roundTick (p : ℚ) : ℚ := ((round (p / TICK) : ℤ) : ℚ) * TICK

/-- `head.size <= 1e-7` removal threshold in `executeMarket`. -/
def eps : ℚ := 1 / 10000000

/-- `remainingSize > 1e-8` resting threshold in `placeAndMatch`, and the
`Math.abs(newPos) < 1e-8` dust-position threshold in `fillPosition`. -/
def epsRest : ℚ := 1 / 100000000

/-- One side of the book: a `Map<number, Order[]>`, as an association list. -/
abbrev BookSide := List (ℚ × List Order)

def mget (m : BookSide) (k : ℚ) : Option (List Order) :=
  match m with
  | [] => none
  | e :: rest => if e.1 = k then some e.2 else mget rest k

def mset (m : BookSide) (k : ℚ) (v : List Order) : BookSide :=
  match m with
  | [] => [(k, v)]
  | e :: rest => if e.1 = k then (k, v) :: rest else e :: mset rest k v

def mdel (m : BookSide) (k : ℚ) : BookSide :=
  m.filter (fun e => e.1 != k)

def keys (m : BookSide) : List ℚ := m.map Prod.fst

def sumQ (q : List Order) : ℚ := (q.map Order.size).sum

def sumSide (m : BookSide) : ℚ := (m.map (fun e => sumQ e.2)).sum

def listMax : List ℚ → Option ℚ
  | [] => none
  | x :: xs => some (xs.foldl max x)

def listMin : List ℚ → Option ℚ
  | [] => none
  | x :: xs => some (xs.foldl min x)

structure OrderBook where
  bids : BookSide
  asks : BookSide
deriving DecidableEq

def emptyBook : OrderBook := ⟨[], []⟩

/-- `OrderBook.add`: quantize the price to the tick grid and append the order
at the tail of its price level's queue; no matching. -/
def OrderBook.add (b : OrderBook) (o : Order) : OrderBook :=
  let px := roundTick o.price
  match o.side with
  | .buy =>
    let q := (mget b.bids px).getD []
    { b with bids := mset b.bids px (q ++ [{ o with price := px }]) }
  | .sell =>
    let q := (mget b.asks px).getD []
    { b with asks := mset b.asks px (q ++ [{ o with price := px }]) }

/-- `bestBid()`: `null` when the bid map is empty, else the max key. -/
def OrderBook.bestBid (b : OrderBook) : Option ℚ := listMax (keys b.bids)

/-- `bestAsk()`: `null` when the ask map is empty, else the min key. -/
def OrderBook.bestAsk (b : OrderBook) : Option ℚ := listMin (keys b.asks)

/-- The inner `while (queue.length && remain > 0)` loop of `executeMarket`
at one price level `px`.  Returns the queue left at that level, the
remaining aggressor size, the notional traded at this level, and the trade
records in execution order.  When a head order is only partially consumed,
its remaining size exceeds `eps`, which forces `tradeSize = remain` and the
loop exits with that head left in place — so the non-shift branch does not
recurse, exactly as the source loop terminates there. -/
def execQueue (side : Side) (px : ℚ) (now : ℤ) :
    List Order → ℚ → List Order × ℚ × ℚ × List Trade
  | [], remain => ([], remain, 0, [])
  | head :: rest, remain =>
    if remain ≤ 0 then (head :: rest, remain, 0, [])
    else
      let tradeSize := min remain head.size
      let newSize := head.size - tradeSize
      let tr : Trade := ⟨now, px, tradeSize, side⟩
      if newSize ≤ eps then
        match execQueue side px now rest (remain - tradeSize) with
        | (q, r, n, ts) => (q, r, n + tradeSize * px, tr :: ts)
      else
        ({ head with size := newSize } :: rest, remain - tradeSize, tradeSize * px, [tr])

/-- The outer `for (const px of levels)` loop of `executeMarket`: process
the sorted level list, deleting a level whose queue empties out
(`book.delete(px)`) and otherwise keeping the (mutated) queue. -/
def execLevels (side : Side) (now : ℤ) :
    List ℚ → BookSide → ℚ → BookSide × ℚ × ℚ × List Trade
  | [], m, remain => (m, remain, 0, [])
  | px :: rest, m, remain =>
    if remain ≤ 0 then (m, remain, 0, [])
    else
      let queue := (mget m px).getD []
      match execQueue side px now queue remain with
      | (q, r, n, ts) =>
        let m2 := if q.isEmpty then mdel m px else mset m px q
        match execLevels side now rest m2 r with
        | (m3, r2, n2, ts2) => (m3, r2, n + n2, ts ++ ts2)

/-- `[...book.keys()].sort((a, b) => a - b)`. -/
def sortAsc (l : List ℚ) : List ℚ := l.insertionSort (· ≤ ·)

/-- `[...book.keys()].sort((a, b) => b - a)`. -/
def sortDesc (l : List ℚ) : List ℚ := l.insertionSort (fun a b => b ≤ a)

structure MarketOutcome where
  book : OrderBook
  trades : List Trade
  avgPrice : ℚ
  filled : ℚ
deriving DecidableEq

/-- `executeMarket(side, size, now)`: consume the opposite side of the book
level by level in aggressor-favorable price order, FIFO within a level. -/
def OrderBook.executeMarket (b : OrderBook) (side : Side) (size : ℚ) (now : ℤ) :
    MarketOutcome :=
  match side with
  | .buy =>
    match execLevels .buy now (sortAsc (keys b.asks)) b.asks size with
    | (m2, remain, notional, trades) =>
      ⟨{ b with asks := m2 }, trades,
        if size - remain > 0 then notional / (size - remain) else 0, size - remain⟩
  | .sell =>
    match execLevels .sell now (sortDesc (keys b.bids)) b.bids size with
    | (m2, remain, notional, trades) =>
      ⟨{ b with bids := m2 }, trades,
        if size - remain > 0 then notional / (size - remain) else 0, size - remain⟩

structure PlaceOutcome where
  book : OrderBook
  trades : List Trade
  remaining : Option Order
deriving DecidableEq

/-- `placeAndMatch(order, now)`: market orders route through
`executeMarket`; a crossing limit order executes then rests any remainder
above `1e-8`; a non-crossing limit order rests immediately. -/
def OrderBook.placeAndMatch (b : OrderBook) (o : Order) (now : ℤ) : PlaceOutcome :=
  match o.kind with
  | .market =>
    let res := b.executeMarket o.side o.size now
    ⟨res.book, res.trades, none⟩
  | .limit =>
    let bestOpp := match o.side with | .buy => b.bestAsk | .sell => b.bestBid
    match bestOpp with
    | some bo =>
      if (o.side = .buy ∧ o.price ≥ bo) ∨ (o.side = .sell ∧ o.price ≤ bo) then
        let res := b.executeMarket o.side o.size now
        let remainingSize := o.size - res.filled
        if remainingSize > epsRest then
          let leftover := { o with size := remainingSize }
          ⟨res.book.add leftover, res.trades, some leftover⟩
        else
          ⟨res.book, res.trades, none⟩
      else
        ⟨b.add o, [], some o⟩
    | none => ⟨b.add o, [], some o⟩

structure Account where
  cash : ℚ
  position : ℚ
  avgPrice : ℚ
  realized : ℚ
deriving DecidableEq

/-- One iteration of the `for (const f of fills)` loop in `fillPosition`. -/
def applyFill (side : Side) (a : Account) (f : Trade) : Account :=
  match side with
  | .buy =>
    if a.position ≥ 0 then
      let totalCost := a.avgPrice * a.position + f.price * f.size
      let newPos := a.position + f.size
      { a with
        position := newPos
        avgPrice := if newPos > 0 then totalCost / newPos else 0
        cash := a.cash - f.price * f.size }
    else
      let closeSize := min f.size (-a.position)
      let cash1 := a.cash - f.price * closeSize
      let real1 := a.realized + (a.avgPrice - f.price) * closeSize
      let pos1 := a.position + closeSize
      let leftover := f.size - closeSize
      if leftover > 0 then
        { cash := cash1 - f.price * leftover
          position := pos1 + leftover
          avgPrice := f.price * leftover / (pos1 + leftover)
          realized := real1 }
      else
        { a with cash := cash1, position := pos1, realized := real1 }
  | .sell =>
    if a.position ≤ 0 then
      if a.position < 0 then
        let totalProceeds := -a.avgPrice * a.position + f.price * f.size
        let newPos := a.position - f.size
        { a with
          position := newPos
          avgPrice := if newPos < 0 then -totalProceeds / newPos else 0
          cash := a.cash + f.price * f.size }
      else
        { a with
          position := a.position - f.size
          avgPrice := -a.avgPrice
          cash := a.cash + f.price * f.size }
    else
      let closeSize := min f.size a.position
      let cash1 := a.cash + f.price * closeSize
      let real1 := a.realized + (f.price - a.avgPrice) * closeSize
      let pos1 := a.position - closeSize
      let leftover := f.size - closeSize
      if leftover > 0 then
        { cash := cash1 + f.price * leftover
          position := pos1 - leftover
          avgPrice := f.price
          realized := real1 }
      else
        { a with cash := cash1, position := pos1, realized := real1 }

/-- `fillPosition(side, fills)`: early return on an empty fill list, else
fold the fills through `applyFill` and snap a sub-`1e-8` position to zero. -/
def fillPosition (side : Side) (fills : List Trade) (a : Account) : Account :=
  if fills = [] then a
  else
    let a2 := fills.foldl (applyFill side) a
    if |a2.position| < epsRest then { a2 with position := 0, avgPrice := 0 } else a2

/-- Folding `placeAndMatch` over a list of submitted orders, starting from a
given book; each order is matched at its own submission time. -/
def applyOps (b : OrderBook) (ops : List Order) : OrderBook :=
  ops.foldl (fun bk o => (bk.placeAndMatch o o.time).book) b

/-- The no-crossed-book property of the spec: whenever both a best bid and a
best ask exist, `bestBid < bestAsk`. -/
def uncrossed (b : OrderBook) : Bool :=
  match b.bestBid, b.bestAsk with
  | some x, some y => decide (x < y)
  | _, _ => true

/-! ### Helper lemmas: list maxima and minima -/

lemma foldl_max_mem (xs : List ℚ) : ∀ a, xs.foldl max a ∈ a :: xs := by
  induction xs with
  | nil => intro a; simp
  | cons x xs ih =>
    intro a
    have h := ih (max a x)
    simp only [List.foldl_cons]
    rcases List.mem_cons.mp h with h | h
    · rcases max_choice a x with hm | hm
      · rw [h, hm]; simp
      · rw [h, hm]; simp
    · simp [h]

lemma le_foldl_max_init (xs : List ℚ) : ∀ a, a ≤ xs.foldl max a := by
  induction xs with
  | nil => intro a; simp
  | cons x xs ih =>
    intro a
    exact le_trans (le_max_left a x) (ih (max a x))

lemma le_foldl_max (xs : List ℚ) : ∀ a x, x ∈ xs → x ≤ xs.foldl max a := by
  induction xs with
  | nil => intro a x hx; cases hx
  | cons y ys ih =>
    intro a x hx
    simp only [List.foldl_cons]
    rcases List.mem_cons.mp hx with h | h
    · subst h; exact le_trans (le_max_right a x) (le_foldl_max_init ys _)
    · exact ih _ x h

lemma foldl_min_mem (xs : List ℚ) : ∀ a, xs.foldl min a ∈ a :: xs := by
  induction xs with
  | nil => intro a; simp
  | cons x xs ih =>
    intro a
    have h := ih (min a x)
    simp only [List.foldl_cons]
    rcases List.mem_cons.mp h with h | h
    · rcases min_choice a x with hm | hm
      · rw [h, hm]; simp
      · rw [h, hm]; simp
    · simp [h]

lemma foldl_min_le_init (xs : List ℚ) : ∀ a, xs.foldl min a ≤ a := by
  induction xs with
  | nil => intro a; simp
  | cons x xs ih =>
    intro a
    exact le_trans (ih (min a x)) (min_le_left a x)

lemma foldl_min_le (xs : List ℚ) : ∀ a x, x ∈ xs → xs.foldl min a ≤ x := by
  induction xs with
  | nil => intro a x hx; cases hx
  | cons y ys ih =>
    intro a x hx
    simp only [List.foldl_cons]
    rcases List.mem_cons.mp hx with h | h
    · subst h; exact le_trans (foldl_min_le_init ys _) (min_le_right a x)
    · exact ih _ x h

lemma listMax_mem {l : List ℚ} {m : ℚ} (h : listMax l = some m) : m ∈ l := by
  cases l with
  | nil => simp [listMax] at h
  | cons x xs =>
    simp only [listMax, Option.some.injEq] at h
    subst h
    exact foldl_max_mem xs x

lemma le_listMax {l : List ℚ} {m x : ℚ} (h : listMax l = some m) (hx : x ∈ l) : x ≤ m := by
  cases l with
  | nil => cases hx
  | cons y ys =>
    simp only [listMax, Option.some.injEq] at h
    subst h
    rcases List.mem_cons.mp hx with h | h
    · subst h; exact le_foldl_max_init ys x
    · exact le_foldl_max ys y x h

lemma listMax_isSome {l : List ℚ} (h : l ≠ []) : ∃ m, listMax l = some m := by
  cases l with
  | nil => exact absurd rfl h
  | cons x xs => exact ⟨xs.foldl max x, rfl⟩

lemma listMin_mem {l : List ℚ} {m : ℚ} (h : listMin l = some m) : m ∈ l := by
  cases l with
  | nil => simp [listMin] at h
  | cons x xs =>
    simp only [listMin, Option.some.injEq] at h
    subst h
    exact foldl_min_mem xs x

lemma listMin_le {l : List ℚ} {m x : ℚ} (h : listMin l = some m) (hx : x ∈ l) : m ≤ x := by
  cases l with
  | nil => cases hx
  | cons y ys =>
    simp only [listMin, Option.some.injEq] at h
    subst h
    rcases List.mem_cons.mp hx with h | h
    · subst h; exact foldl_min_le_init ys x
    · exact foldl_min_le ys y x h

lemma listMin_isSome {l : List ℚ} (h : l ≠ []) : ∃ m, listMin l = some m := by
  cases l with
  | nil => exact absurd rfl h
  | cons x xs => exact ⟨xs.foldl min x, rfl⟩

/-! ### Helper lemmas: the association-list book sides -/

lemma mget_eq_none_iff {m : BookSide} {k : ℚ} : mget m k = none ↔ k ∉ keys m := by
  induction m with
  | nil => simp [mget, keys]
  | cons e rest ih =>
    by_cases h : e.1 = k
    · simp [mget, keys, h]
    · simp [mget, keys, h, ih, Ne.symm h]

lemma keys_cons (e : ℚ × List Order) (rest : BookSide) :
    keys (e :: rest) = e.1 :: keys rest := rfl

lemma mem_keys_mset {m : BookSide} {k x : ℚ} {v : List Order}
    (h : x ∈ keys (mset m k v)) : x ∈ keys m ∨ x = k := by
  induction m with
  | nil =>
    right
    simpa [mset, keys] using h
  | cons e rest ih =>
    by_cases he : e.1 = k
    · rw [mset, if_pos he, keys_cons] at h
      rcases List.mem_cons.mp h with h | h
      · right; exact h
      · left; rw [keys_cons]; exact List.mem_cons_of_mem _ h
    · rw [mset, if_neg he, keys_cons] at h
      rw [keys_cons]
      rcases List.mem_cons.mp h with h | h
      · left; exact h ▸ List.mem_cons_self _ _
      · rcases ih h with h | h
        · left; exact List.mem_cons_of_mem _ h
        · right; exact h

lemma keys_mset_of_mem {m : BookSide} {k : ℚ} {v : List Order}
    (h : k ∈ keys m) : keys (mset m k v) = keys m := by
  induction m with
  | nil => cases h
  | cons e rest ih =>
    by_cases he : e.1 = k
    · rw [mset, if_pos he, keys_cons, keys_cons, he]
    · rw [keys_cons] at h
      rcases List.mem_cons.mp h with h | h
      · exact absurd h.symm he
      · rw [mset, if_neg he, keys_cons, keys_cons, ih h]

lemma mem_keys_mdel {m : BookSide} {k x : ℚ} (h : x ∈ keys (mdel m k)) :
    x ∈ keys m ∧ x ≠ k := by
  induction m with
  | nil => simp [mdel, keys] at h
  | cons e rest ih =>
    by_cases he : e.1 = k
    · rw [mdel, List.filter_cons, if_neg (by simp [he])] at h
      have := ih h
      exact ⟨by rw [keys_cons]; exact List.mem_cons_of_mem _ this.1, this.2⟩
    · rw [mdel, List.filter_cons, if_pos (by simpa using he), keys_cons] at h
      rcases List.mem_cons.mp h with h | h
      · subst h; exact ⟨by rw [keys_cons]; exact List.mem_cons_self _ _, he⟩
      · have := ih h
        exact ⟨by rw [keys_cons]; exact List.mem_cons_of_mem _ this.1, this.2⟩

/-! ### Helper lemmas: the inner matching loop `execQueue` -/

lemma eps_pos : (0 : ℚ) < eps := by norm_num [eps]

lemma epsRest_pos : (0 : ℚ) < epsRest := by norm_num [epsRest]

lemma execQueue_nonneg (side : Side) (px : ℚ) (now : ℤ) :
    ∀ (q : List Order) (remain : ℚ), 0 ≤ remain →
      0 ≤ (execQueue side px now q remain).2.1 := by
  intro q
  induction q with
  | nil => intro remain h; simpa [execQueue] using h
  | cons head rest ih =>
    intro remain h
    simp only [execQueue]
    by_cases hr : remain ≤ 0
    · simp only [if_pos hr]; exact h
    · simp only [if_neg hr]
      have h2 : 0 ≤ remain - min remain head.size := by
        have := min_le_left remain head.size
        linarith
      by_cases hs : head.size - min remain head.size ≤ eps
      · simp only [if_pos hs]
        have hrec := ih (remain - min remain head.size) h2
        rcases hq : execQueue side px now rest (remain - min remain head.size) with
          ⟨q2, r2, n2, ts2⟩
        rw [hq] at hrec
        exact hrec
      · simp only [if_neg hs]
        exact h2

lemma execQueue_empty_of_pos (side : Side) (px : ℚ) (now : ℤ) :
    ∀ (q : List Order) (remain : ℚ),
      0 < (execQueue side px now q remain).2.1 →
      (execQueue side px now q remain).1 = [] := by
  intro q
  induction q with
  | nil => intro remain _; simp [execQueue]
  | cons head rest ih =>
    intro remain hpos
    simp only [execQueue] at hpos ⊢
    by_cases hr : remain ≤ 0
    · rw [if_pos hr] at hpos
      exact absurd hpos (by simp; linarith)
    · rw [if_neg hr] at hpos ⊢
      by_cases hs : head.size - min remain head.size ≤ eps
      · rw [if_pos hs] at hpos ⊢
        have hrec := ih (remain - min remain head.size)
        rcases hq : execQueue side px now rest (remain - min remain head.size) with
          ⟨q2, r2, n2, ts2⟩
        rw [hq] at hrec hpos
        exact hrec hpos
      · rw [if_neg hs] at hpos
        exfalso
        have hlt : min remain head.size < head.size := by
          have := eps_pos
          push_neg at hs
          linarith
        rcases min_choice remain head.size with hm | hm
        · rw [hm] at hpos; simp at hpos
        · rw [hm] at hlt; exact absurd hlt (lt_irrefl _)

lemma execQueue_sizes (side : Side) (px : ℚ) (now : ℤ) :
    ∀ (q : List Order) (remain : ℚ),
      (((execQueue side px now q remain).2.2.2).map Trade.size).sum =
        remain - (execQueue side px now q remain).2.1 := by
  intro q
  induction q with
  | nil => intro remain; simp [execQueue]
  | cons head rest ih =>
    intro remain
    simp only [execQueue]
    by_cases hr : remain ≤ 0
    · simp [if_pos hr]
    · simp only [if_neg hr]
      by_cases hs : head.size - min remain head.size ≤ eps
      · simp only [if_pos hs]
        have hrec := ih (remain - min remain head.size)
        rcases hq : execQueue side px now rest (remain - min remain head.size) with
          ⟨q2, r2, n2, ts2⟩
        rw [hq] at hrec
        dsimp only at hrec ⊢
        simp only [List.map_cons, List.sum_cons]
        rw [hrec]
        ring
      · simp only [if_neg hs, List.map_cons, List.map_nil, List.sum_cons, List.sum_nil]
        ring

lemma execQueue_notional (side : Side) (px : ℚ) (now : ℤ) :
    ∀ (q : List Order) (remain : ℚ),
      (execQueue side px now q remain).2.2.1 =
        (((execQueue side px now q remain).2.2.2).map (fun t => t.price * t.size)).sum := by
  intro q
  induction q with
  | nil => intro remain; simp [execQueue]
  | cons head rest ih =>
    intro remain
    simp only [execQueue]
    by_cases hr : remain ≤ 0
    · simp [if_pos hr]
    · simp only [if_neg hr]
      by_cases hs : head.size - min remain head.size ≤ eps
      · simp only [if_pos hs]
        have hrec := ih (remain - min remain head.size)
        rcases hq : execQueue side px now rest (remain - min remain head.size) with
          ⟨q2, r2, n2, ts2⟩
        rw [hq] at hrec
        dsimp only at hrec ⊢
        simp only [List.map_cons, List.sum_cons]
        rw [hrec]
        ring
      · simp only [if_neg hs, List.map_cons, List.map_nil, List.sum_cons, List.sum_nil]
        ring

lemma execQueue_prices (side : Side) (px : ℚ) (now : ℤ) :
    ∀ (q : List Order) (remain : ℚ),
      ∀ t ∈ (execQueue side px now q remain).2.2.2, t.price = px := by
  intro q
  induction q with
  | nil => intro remain t ht; simp [execQueue] at ht
  | cons head rest ih =>
    intro remain t ht
    simp only [execQueue] at ht
    by_cases hr : remain ≤ 0
    · rw [if_pos hr] at ht; simp at ht
    · rw [if_neg hr] at ht
      by_cases hs : head.size - min remain head.size ≤ eps
      · rw [if_pos hs] at ht
        have hrec := ih (remain - min remain head.size)
        rcases hq : execQueue side px now rest (remain - min remain head.size) with
          ⟨q2, r2, n2, ts2⟩
        rw [hq] at hrec ht
        dsimp only at ht hrec
        rcases List.mem_cons.mp ht with h | h
        · rw [h]
        · exact hrec t h
      · rw [if_neg hs] at ht
        simp only [List.mem_singleton] at ht
        rw [ht]

lemma execQueue_sumQ (side : Side) (px : ℚ) (now : ℤ) :
    ∀ (q : List Order) (remain : ℚ),
      ∃ d : ℚ, sumQ q = sumQ (execQueue side px now q remain).1 +
          (remain - (execQueue side px now q remain).2.1) + d ∧
        0 ≤ d ∧ d ≤ eps * ((execQueue side px now q remain).2.2.2).length := by
  intro q
  induction q with
  | nil =>
    intro remain
    exact ⟨0, by simp [execQueue], le_refl 0, by simp [execQueue]⟩
  | cons head rest ih =>
    intro remain
    simp only [execQueue]
    by_cases hr : remain ≤ 0
    · simp only [if_pos hr]
      exact ⟨0, by ring, le_refl 0, by simp⟩
    · simp only [if_neg hr]
      by_cases hs : head.size - min remain head.size ≤ eps
      · simp only [if_pos hs]
        obtain ⟨d, hd, hd0, hdle⟩ := ih (remain - min remain head.size)
        rcases hq : execQueue side px now rest (remain - min remain head.size) with
          ⟨q2, r2, n2, ts2⟩
        rw [hq] at hd hdle
        dsimp only at hd hdle ⊢
        refine ⟨(head.size - min remain head.size) + d, ?_, ?_, ?_⟩
        · simp only [sumQ, List.map_cons, List.sum_cons] at hd ⊢
          rw [show ((rest.map Order.size).sum : ℚ) = sumQ rest from rfl] at *
          rw [hd]
          ring
        · have : min remain head.size ≤ head.size := min_le_right _ _
          linarith
        · simp only [List.length_cons]
          push_cast
          linarith
      · simp only [if_neg hs]
        refine ⟨0, ?_, le_refl 0, ?_⟩
        · simp only [sumQ, List.map_cons, List.sum_cons]
          ring
        · simp only [List.length_singleton]
          have := eps_pos
          push_cast
          linarith

/-! ### Helper lemmas: sums and key multiplicity of book sides -/

lemma sumSide_cons (e : ℚ × List Order) (rest : BookSide) :
    sumSide (e :: rest) = sumQ e.2 + sumSide rest := by
  simp [sumSide]

lemma mdel_of_not_mem {m : BookSide} {k : ℚ} (h : k ∉ keys m) : mdel m k = m := by
  induction m with
  | nil => rfl
  | cons e rest ih =>
    rw [keys_cons] at h
    simp only [List.mem_cons, not_or] at h
    rw [mdel, List.filter_cons, if_pos (by simp [Ne.symm h.1])]
    exact congrArg (List.cons e) (ih h.2)

lemma keys_mset_of_not_mem {m : BookSide} {k : ℚ} {v : List Order}
    (h : k ∉ keys m) : keys (mset m k v) = keys m ++ [k] := by
  induction m with
  | nil => simp [mset, keys]
  | cons e rest ih =>
    rw [keys_cons] at h
    simp only [List.mem_cons, not_or] at h
    rw [mset, if_neg (fun he => h.1 he.symm), keys_cons, keys_cons, ih h.2]
    rfl

lemma keys_mdel_sublist (m : BookSide) (k : ℚ) :
    (keys (mdel m k)).Sublist (keys m) :=
  (List.filter_sublist m).map Prod.fst

lemma keys_mdel_nodup {m : BookSide} (k : ℚ) (h : (keys m).Nodup) :
    (keys (mdel m k)).Nodup :=
  (keys_mdel_sublist m k).nodup h

lemma keys_mset_nodup {m : BookSide} {k : ℚ} {v : List Order}
    (h : (keys m).Nodup) : (keys (mset m k v)).Nodup := by
  by_cases hk : k ∈ keys m
  · rw [keys_mset_of_mem hk]; exact h
  · rw [keys_mset_of_not_mem hk]
    exact List.Nodup.append h (List.nodup_singleton k) (by simpa using hk)

lemma sumSide_mdel {m : BookSide} {k : ℚ} (h : (keys m).Nodup) :
    sumSide (mdel m k) = sumSide m - sumQ ((mget m k).getD []) := by
  induction m with
  | nil => simp [mdel, mget, sumSide, sumQ]
  | cons e rest ih =>
    rw [keys_cons, List.nodup_cons] at h
    by_cases he : e.1 = k
    · rw [mdel, List.filter_cons, if_neg (by simp [he])]
      have hnk : k ∉ keys rest := he ▸ h.1
      rw [show List.filter (fun x => x.1 != k) rest = mdel rest k from rfl,
        mdel_of_not_mem hnk, mget, if_pos he]
      rw [sumSide_cons]
      simp
    · rw [mdel, List.filter_cons, if_pos (by simp [he])]
      rw [show List.filter (fun x => x.1 != k) rest = mdel rest k from rfl]
      rw [sumSide_cons, sumSide_cons, ih h.2, mget, if_neg he]
      ring

lemma sumSide_mset {m : BookSide} {k : ℚ} {v : List Order} (h : (keys m).Nodup) :
    sumSide (mset m k v) = sumSide m - sumQ ((mget m k).getD []) + sumQ v := by
  induction m with
  | nil => simp [mset, mget, sumSide, sumQ]
  | cons e rest ih =>
    rw [keys_cons, List.nodup_cons] at h
    by_cases he : e.1 = k
    · rw [mset, if_pos he, mget, if_pos he]
      rw [sumSide_cons, sumSide_cons]
      simp only [Option.getD_some]
      ring
    · rw [mset, if_neg he, mget, if_neg he]
      rw [sumSide_cons, sumSide_cons, ih h.2]
      ring

/-! ### Helper lemmas: the level loop `execLevels` -/

lemma execLevels_nonpos (side : Side) (now : ℤ) (L : List ℚ) (m : BookSide)
    {remain : ℚ} (h : remain ≤ 0) :
    execLevels side now L m remain = (m, remain, 0, []) := by
  cases L with
  | nil => rfl
  | cons px rest => simp only [execLevels, if_pos h]

lemma execLevels_cons_eq (side : Side) (now : ℤ) (px : ℚ) (rest : List ℚ)
    (m : BookSide) (remain : ℚ) (hr : ¬remain ≤ 0)
    {q : List Order} {r n : ℚ} {ts : List Trade}
    (hq : execQueue side px now ((mget m px).getD []) remain = (q, r, n, ts))
    {m3 : BookSide} {r2 n2 : ℚ} {ts2 : List Trade}
    (hL : execLevels side now rest (if q.isEmpty then mdel m px else mset m px q) r =
      (m3, r2, n2, ts2)) :
    execLevels side now (px :: rest) m remain = (m3, r2, n + n2, ts ++ ts2) := by
  simp only [execLevels, if_neg hr, hq, hL]

lemma execLevels_nonneg (side : Side) (now : ℤ) :
    ∀ (L : List ℚ) (m : BookSide) (remain : ℚ), 0 ≤ remain →
      0 ≤ (execLevels side now L m remain).2.1 := by
  intro L
  induction L with
  | nil => intro m remain h; simpa [execLevels] using h
  | cons px rest ih =>
    intro m remain h
    simp only [execLevels]
    by_cases hr : remain ≤ 0
    · simp only [if_pos hr]; exact h
    · simp only [if_neg hr]
      rcases hq : execQueue side px now ((mget m px).getD []) remain with ⟨q, r, n, ts⟩
      have h2 : 0 ≤ r := by
        have := execQueue_nonneg side px now ((mget m px).getD []) remain h
        rw [hq] at this
        exact this
      have hrec := ih (if q.isEmpty then mdel m px else mset m px q) r h2
      rcases hL : execLevels side now rest (if q.isEmpty then mdel m px else mset m px q) r with
        ⟨m3, r2, n2, ts2⟩
      rw [hL] at hrec
      exact hrec

lemma execLevels_keys_sub (side : Side) (now : ℤ) :
    ∀ (L : List ℚ) (m : BookSide) (remain : ℚ),
      ∀ x ∈ keys (execLevels side now L m remain).1, x ∈ keys m ∨ x ∈ L := by
  intro L
  induction L with
  | nil => intro m remain x hx; left; simpa [execLevels] using hx
  | cons px rest ih =>
    intro m remain x hx
    simp only [execLevels] at hx
    by_cases hr : remain ≤ 0
    · rw [if_pos hr] at hx; left; exact hx
    · rw [if_neg hr] at hx
      rcases hq : execQueue side px now ((mget m px).getD []) remain with ⟨q, r, n, ts⟩
      rw [hq] at hx
      rcases hL : execLevels side now rest (if q.isEmpty then mdel m px else mset m px q) r with
        ⟨m3, r2, n2, ts2⟩
      rw [hL] at hx
      dsimp only at hx
      have hmem := ih (if q.isEmpty then mdel m px else mset m px q) r x (by rw [hL]; exact hx)
      rcases hmem with hmem | hmem
      · by_cases hqe : q.isEmpty
        · rw [if_pos hqe] at hmem
          left; exact (mem_keys_mdel hmem).1
        · rw [if_neg hqe] at hmem
          rcases mem_keys_mset hmem with h | h
          · left; exact h
          · right; rw [h]; exact List.mem_cons_self _ _
      · right; exact List.mem_cons_of_mem _ hmem

lemma execLevels_empty_of_pos (side : Side) (now : ℤ) :
    ∀ (L : List ℚ) (m : BookSide) (remain : ℚ),
      0 < (execLevels side now L m remain).2.1 →
      (∀ x ∈ keys m, x ∈ L) →
      (execLevels side now L m remain).1 = [] := by
  intro L
  induction L with
  | nil =>
    intro m remain hpos hsub
    simp only [execLevels]
    cases m with
    | nil => rfl
    | cons e rest =>
      exact absurd (hsub e.1 (by rw [keys_cons]; exact List.mem_cons_self _ _)) (by simp)
  | cons px rest ih =>
    intro m remain hpos hsub
    by_cases hr : remain ≤ 0
    · rw [execLevels_nonpos side now _ m hr] at hpos
      dsimp only at hpos
      linarith
    · rcases hq : execQueue side px now ((mget m px).getD []) remain with ⟨q, r, n, ts⟩
      rcases hL : execLevels side now rest (if q.isEmpty then mdel m px else mset m px q) r with
        ⟨m3, r2, n2, ts2⟩
      rw [execLevels_cons_eq side now px rest m remain hr hq hL] at hpos ⊢
      dsimp only at hpos ⊢
      have hrpos : 0 < r := by
        by_contra hrn
        push_neg at hrn
        rw [execLevels_nonpos side now rest _ hrn] at hL
        injection hL with h1 hrest
        injection hrest with h2 hrest2
        rw [← h2] at hpos
        linarith
      have hq0 : q = [] := by
        have h2 := execQueue_empty_of_pos side px now ((mget m px).getD []) remain
        rw [hq] at h2
        exact h2 hrpos
      subst hq0
      simp only [List.isEmpty_nil, if_true] at hL
      have hsub2 : ∀ x ∈ keys (mdel m px), x ∈ rest := by
        intro x hx
        obtain ⟨hxm, hxne⟩ := mem_keys_mdel hx
        rcases List.mem_cons.mp (hsub x hxm) with h | h
        · exact absurd h hxne
        · exact h
      have hres := ih (mdel m px) r (by rw [hL]; exact hpos) hsub2
      rw [hL] at hres
      exact hres

lemma execLevels_sizes (side : Side) (now : ℤ) :
    ∀ (L : List ℚ) (m : BookSide) (remain : ℚ),
      (((execLevels side now L m remain).2.2.2).map Trade.size).sum =
        remain - (execLevels side now L m remain).2.1 := by
  intro L
  induction L with
  | nil => intro m remain; simp [execLevels]
  | cons px rest ih =>
    intro m remain
    by_cases hr : remain ≤ 0
    · rw [execLevels_nonpos side now _ m hr]
      simp
    · rcases hq : execQueue side px now ((mget m px).getD []) remain with ⟨q, r, n, ts⟩
      rcases hL : execLevels side now rest (if q.isEmpty then mdel m px else mset m px q) r with
        ⟨m3, r2, n2, ts2⟩
      rw [execLevels_cons_eq side now px rest m remain hr hq hL]
      dsimp only
      have h1 := execQueue_sizes side px now ((mget m px).getD []) remain
      rw [hq] at h1
      dsimp only at h1
      have h2 := ih (if q.isEmpty then mdel m px else mset m px q) r
      rw [hL] at h2
      dsimp only at h2
      rw [List.map_append, List.sum_append, h1, h2]
      ring

lemma execLevels_notional (side : Side) (now : ℤ) :
    ∀ (L : List ℚ) (m : BookSide) (remain : ℚ),
      (execLevels side now L m remain).2.2.1 =
        (((execLevels side now L m remain).2.2.2).map (fun t => t.price * t.size)).sum := by
  intro L
  induction L with
  | nil => intro m remain; simp [execLevels]
  | cons px rest ih =>
    intro m remain
    by_cases hr : remain ≤ 0
    · rw [execLevels_nonpos side now _ m hr]
      simp
    · rcases hq : execQueue side px now ((mget m px).getD []) remain with ⟨q, r, n, ts⟩
      rcases hL : execLevels side now rest (if q.isEmpty then mdel m px else mset m px q) r with
        ⟨m3, r2, n2, ts2⟩
      rw [execLevels_cons_eq side now px rest m remain hr hq hL]
      dsimp only
      have h1 := execQueue_notional side px now ((mget m px).getD []) remain
      rw [hq] at h1
      dsimp only at h1
      have h2 := ih (if q.isEmpty then mdel m px else mset m px q) r
      rw [hL] at h2
      dsimp only at h2
      rw [List.map_append, List.sum_append, h1, h2]

lemma execLevels_prices_mem (side : Side) (now : ℤ) :
    ∀ (L : List ℚ) (m : BookSide) (remain : ℚ),
      ∀ t ∈ (execLevels side now L m remain).2.2.2, t.price ∈ L := by
  intro L
  induction L with
  | nil => intro m remain t ht; simp [execLevels] at ht
  | cons px rest ih =>
    intro m remain t ht
    by_cases hr : remain ≤ 0
    · rw [execLevels_nonpos side now _ m hr] at ht
      simp at ht
    · rcases hq : execQueue side px now ((mget m px).getD []) remain with ⟨q, r, n, ts⟩
      rcases hL : execLevels side now rest (if q.isEmpty then mdel m px else mset m px q) r with
        ⟨m3, r2, n2, ts2⟩
      rw [execLevels_cons_eq side now px rest m remain hr hq hL] at ht
      dsimp only at ht
      rcases List.mem_append.mp ht with h | h
      · have h1 := execQueue_prices side px now ((mget m px).getD []) remain
        rw [hq] at h1
        rw [h1 t h]
        exact List.mem_cons_self _ _
      · have h2 := ih (if q.isEmpty then mdel m px else mset m px q) r t (by rw [hL]; exact h)
        exact List.mem_cons_of_mem _ h2

lemma execLevels_pairwise (side : Side) (now : ℤ) (R : ℚ → ℚ → Prop)
    (hrefl : ∀ x, R x x) :
    ∀ (L : List ℚ) (m : BookSide) (remain : ℚ), L.Pairwise R →
      ((execLevels side now L m remain).2.2.2).Pairwise (fun t u => R t.price u.price) := by
  intro L
  induction L with
  | nil => intro m remain _; simp [execLevels]
  | cons px rest ih =>
    intro m remain hp
    by_cases hr : remain ≤ 0
    · rw [execLevels_nonpos side now _ m hr]
      simp
    · rcases hq : execQueue side px now ((mget m px).getD []) remain with ⟨q, r, n, ts⟩
      rcases hL : execLevels side now rest (if q.isEmpty then mdel m px else mset m px q) r with
        ⟨m3, r2, n2, ts2⟩
      rw [execLevels_cons_eq side now px rest m remain hr hq hL]
      dsimp only
      have hpx := execQueue_prices side px now ((mget m px).getD []) remain
      rw [hq] at hpx
      dsimp only at hpx
      have hts2 := ih (if q.isEmpty then mdel m px else mset m px q) r
        (List.pairwise_cons.mp hp).2
      rw [hL] at hts2
      dsimp only at hts2
      refine List.pairwise_append.mpr ⟨?_, hts2, ?_⟩
      · exact List.pairwise_of_forall_mem_list fun a ha b hb => by
          rw [hpx a ha, hpx b hb]; exact hrefl px
      · intro a ha b hb
        have hbp : b.price ∈ rest := by
          have := execLevels_prices_mem side now rest
            (if q.isEmpty then mdel m px else mset m px q) r b (by rw [hL]; exact hb)
          exact this
        rw [hpx a ha]
        exact (List.pairwise_cons.mp hp).1 b.price hbp

lemma execLevels_nodup (side : Side) (now : ℤ) :
    ∀ (L : List ℚ) (m : BookSide) (remain : ℚ), (keys m).Nodup →
      (keys (execLevels side now L m remain).1).Nodup := by
  intro L
  induction L with
  | nil => intro m remain h; simpa [execLevels] using h
  | cons px rest ih =>
    intro m remain h
    by_cases hr : remain ≤ 0
    · rw [execLevels_nonpos side now _ m hr]
      exact h
    · rcases hq : execQueue side px now ((mget m px).getD []) remain with ⟨q, r, n, ts⟩
      rcases hL : execLevels side now rest (if q.isEmpty then mdel m px else mset m px q) r with
        ⟨m3, r2, n2, ts2⟩
      rw [execLevels_cons_eq side now px rest m remain hr hq hL]
      dsimp only
      have hm2 : (keys (if q.isEmpty then mdel m px else mset m px q)).Nodup := by
        by_cases hqe : q.isEmpty
        · rw [if_pos hqe]; exact keys_mdel_nodup px h
        · rw [if_neg hqe]; exact keys_mset_nodup h
      have := ih (if q.isEmpty then mdel m px else mset m px q) r hm2
      rw [hL] at this
      exact this

lemma execLevels_sumSide (side : Side) (now : ℤ) :
    ∀ (L : List ℚ) (m : BookSide) (remain : ℚ), (keys m).Nodup →
      ∃ D : ℚ, sumSide m = sumSide (execLevels side now L m remain).1 +
          (remain - (execLevels side now L m remain).2.1) + D ∧
        0 ≤ D ∧ D ≤ eps * ((execLevels side now L m remain).2.2.2).length := by
  intro L
  induction L with
  | nil =>
    intro m remain _
    exact ⟨0, by simp [execLevels], le_refl 0, by simp [execLevels]⟩
  | cons px rest ih =>
    intro m remain h
    by_cases hr : remain ≤ 0
    · rw [execLevels_nonpos side now _ m hr]
      exact ⟨0, by ring, le_refl 0, by simp⟩
    · rcases hq : execQueue side px now ((mget m px).getD []) remain with ⟨q, r, n, ts⟩
      rcases hL : execLevels side now rest (if q.isEmpty then mdel m px else mset m px q) r with
        ⟨m3, r2, n2, ts2⟩
      rw [execLevels_cons_eq side now px rest m remain hr hq hL]
      dsimp only
      obtain ⟨d, hd, hd0, hdle⟩ := execQueue_sumQ side px now ((mget m px).getD []) remain
      rw [hq] at hd hdle
      dsimp only at hd hdle
      have hstep : sumSide (if q.isEmpty then mdel m px else mset m px q) =
          sumSide m - sumQ ((mget m px).getD []) + sumQ q := by
        by_cases hqe : q.isEmpty
        · rw [if_pos hqe, sumSide_mdel h]
          have : q = [] := List.isEmpty_iff.mp hqe
          rw [this]
          simp [sumQ]
        · rw [if_neg hqe, sumSide_mset h]
      have hm2 : (keys (if q.isEmpty then mdel m px else mset m px q)).Nodup := by
        by_cases hqe : q.isEmpty
        · rw [if_pos hqe]; exact keys_mdel_nodup px h
        · rw [if_neg hqe]; exact keys_mset_nodup h
      obtain ⟨D2, hD2, hD20, hD2le⟩ := ih (if q.isEmpty then mdel m px else mset m px q) r hm2
      rw [hL] at hD2 hD2le
      dsimp only at hD2 hD2le
      refine ⟨d + D2, ?_, by linarith, ?_⟩
      · rw [hstep] at hD2
        linarith
      · rw [List.length_append]
        push_cast
        linarith


/-! ### Helper lemmas: sorting, `executeMarket`, `add` -/

instance : IsTotal ℚ (fun a b => b ≤ a) := ⟨fun a b => le_total b a⟩

instance : IsTrans ℚ (fun a b => b ≤ a) := ⟨fun _ _ _ h1 h2 => le_trans h2 h1⟩

lemma sortAsc_mem {l : List ℚ} {x : ℚ} : x ∈ sortAsc l ↔ x ∈ l := by
  simp [sortAsc]

lemma sortDesc_mem {l : List ℚ} {x : ℚ} : x ∈ sortDesc l ↔ x ∈ l := by
  simp [sortDesc]

lemma sortAsc_pairwise (l : List ℚ) : (sortAsc l).Pairwise (· ≤ ·) :=
  List.sorted_insertionSort _ l

lemma sortDesc_pairwise (l : List ℚ) : (sortDesc l).Pairwise (fun a b => b ≤ a) :=
  List.sorted_insertionSort _ l

lemma executeMarket_buy_eq (b : OrderBook) (size : ℚ) (now : ℤ)
    {m2 : BookSide} {remain notional : ℚ} {trades : List Trade}
    (h : execLevels .buy now (sortAsc (keys b.asks)) b.asks size =
      (m2, remain, notional, trades)) :
    b.executeMarket .buy size now =
      ⟨{ b with asks := m2 }, trades,
        if size - remain > 0 then notional / (size - remain) else 0, size - remain⟩ := by
  simp only [OrderBook.executeMarket, h]

lemma executeMarket_sell_eq (b : OrderBook) (size : ℚ) (now : ℤ)
    {m2 : BookSide} {remain notional : ℚ} {trades : List Trade}
    (h : execLevels .sell now (sortDesc (keys b.bids)) b.bids size =
      (m2, remain, notional, trades)) :
    b.executeMarket .sell size now =
      ⟨{ b with bids := m2 }, trades,
        if size - remain > 0 then notional / (size - remain) else 0, size - remain⟩ := by
  simp only [OrderBook.executeMarket, h]

lemma executeMarket_buy_bids (b : OrderBook) (size : ℚ) (now : ℤ) :
    (b.executeMarket .buy size now).book.bids = b.bids := by
  rcases h : execLevels .buy now (sortAsc (keys b.asks)) b.asks size with ⟨m2, r, n, ts⟩
  rw [executeMarket_buy_eq b size now h]

lemma executeMarket_sell_asks (b : OrderBook) (size : ℚ) (now : ℤ) :
    (b.executeMarket .sell size now).book.asks = b.asks := by
  rcases h : execLevels .sell now (sortDesc (keys b.bids)) b.bids size with ⟨m2, r, n, ts⟩
  rw [executeMarket_sell_eq b size now h]

lemma executeMarket_buy_asks_sub (b : OrderBook) (size : ℚ) (now : ℤ) :
    ∀ x ∈ keys (b.executeMarket .buy size now).book.asks, x ∈ keys b.asks := by
  rcases h : execLevels .buy now (sortAsc (keys b.asks)) b.asks size with ⟨m2, r, n, ts⟩
  rw [executeMarket_buy_eq b size now h]
  intro x hx
  have := execLevels_keys_sub .buy now (sortAsc (keys b.asks)) b.asks size x (by rw [h]; exact hx)
  rcases this with h2 | h2
  · exact h2
  · exact sortAsc_mem.mp h2

lemma executeMarket_sell_bids_sub (b : OrderBook) (size : ℚ) (now : ℤ) :
    ∀ x ∈ keys (b.executeMarket .sell size now).book.bids, x ∈ keys b.bids := by
  rcases h : execLevels .sell now (sortDesc (keys b.bids)) b.bids size with ⟨m2, r, n, ts⟩
  rw [executeMarket_sell_eq b size now h]
  intro x hx
  have := execLevels_keys_sub .sell now (sortDesc (keys b.bids)) b.bids size x (by rw [h]; exact hx)
  rcases this with h2 | h2
  · exact h2
  · exact sortDesc_mem.mp h2

lemma executeMarket_buy_empty_of_unfilled (b : OrderBook) (size : ℚ) (now : ℤ)
    (h : (b.executeMarket .buy size now).filled < size) :
    (b.executeMarket .buy size now).book.asks = [] := by
  rcases hL : execLevels .buy now (sortAsc (keys b.asks)) b.asks size with ⟨m2, r, n, ts⟩
  rw [executeMarket_buy_eq b size now hL] at h ⊢
  dsimp only at h ⊢
  have hrpos : 0 < r := by linarith
  have := execLevels_empty_of_pos .buy now (sortAsc (keys b.asks)) b.asks size
    (by rw [hL]; exact hrpos) (fun x hx => sortAsc_mem.mpr hx)
  rw [hL] at this
  exact this

lemma executeMarket_sell_empty_of_unfilled (b : OrderBook) (size : ℚ) (now : ℤ)
    (h : (b.executeMarket .sell size now).filled < size) :
    (b.executeMarket .sell size now).book.bids = [] := by
  rcases hL : execLevels .sell now (sortDesc (keys b.bids)) b.bids size with ⟨m2, r, n, ts⟩
  rw [executeMarket_sell_eq b size now hL] at h ⊢
  dsimp only at h ⊢
  have hrpos : 0 < r := by linarith
  have := execLevels_empty_of_pos .sell now (sortDesc (keys b.bids)) b.bids size
    (by rw [hL]; exact hrpos) (fun x hx => sortDesc_mem.mpr hx)
  rw [hL] at this
  exact this

lemma add_buy_asks (b : OrderBook) (o : Order) (hs : o.side = .buy) :
    (b.add o).asks = b.asks := by
  simp only [OrderBook.add, hs]

lemma add_sell_bids (b : OrderBook) (o : Order) (hs : o.side = .sell) :
    (b.add o).bids = b.bids := by
  simp only [OrderBook.add, hs]

lemma add_buy_bids (b : OrderBook) (o : Order) (hs : o.side = .buy) :
    (b.add o).bids = mset b.bids (roundTick o.price)
      (((mget b.bids (roundTick o.price)).getD []) ++
        [{ o with price := roundTick o.price }]) := by
  simp only [OrderBook.add, hs]

lemma add_sell_asks (b : OrderBook) (o : Order) (hs : o.side = .sell) :
    (b.add o).asks = mset b.asks (roundTick o.price)
      (((mget b.asks (roundTick o.price)).getD []) ++
        [{ o with price := roundTick o.price }]) := by
  simp only [OrderBook.add, hs]

/-! ### The no-crossed-book property -/

/-- Propositional form of `uncrossed`. -/
def UncrossedP (b : OrderBook) : Prop :=
  ∀ x y, b.bestBid = some x → b.bestAsk = some y → x < y

lemma uncrossed_iff (b : OrderBook) : uncrossed b = true ↔ UncrossedP b := by
  unfold uncrossed UncrossedP
  cases hb : b.bestBid <;> cases ha : b.bestAsk <;> simp

lemma uncrossed_exec (b : OrderBook) (side : Side) (size : ℚ) (now : ℤ)
    (h : UncrossedP b) : UncrossedP (b.executeMarket side size now).book := by
  cases side with
  | buy =>
    intro x y hx hy
    rw [OrderBook.bestBid, executeMarket_buy_bids] at hx
    have hym : y ∈ keys (b.executeMarket .buy size now).book.asks := by
      rw [OrderBook.bestAsk] at hy
      exact listMin_mem hy
    have hyb : y ∈ keys b.asks := executeMarket_buy_asks_sub b size now y hym
    obtain ⟨y0, hy0⟩ := listMin_isSome (List.ne_nil_of_mem hyb)
    have h1 : x < y0 := h x y0 hx hy0
    have h2 : y0 ≤ y := listMin_le hy0 hyb
    linarith
  | sell =>
    intro x y hx hy
    rw [OrderBook.bestAsk, executeMarket_sell_asks] at hy
    have hxm : x ∈ keys (b.executeMarket .sell size now).book.bids := by
      rw [OrderBook.bestBid] at hx
      exact listMax_mem hx
    have hxb : x ∈ keys b.bids := executeMarket_sell_bids_sub b size now x hxm
    obtain ⟨x0, hx0⟩ := listMax_isSome (List.ne_nil_of_mem hxb)
    have h1 : x0 < y := h x0 y hx0 hy
    have h2 : x ≤ x0 := le_listMax hx0 hxb
    linarith


lemma placeAndMatch_market_eq (b : OrderBook) (o : Order) (now : ℤ)
    (hk : o.kind = .market) :
    b.placeAndMatch o now = ⟨(b.executeMarket o.side o.size now).book,
      (b.executeMarket o.side o.size now).trades, none⟩ := by
  simp only [OrderBook.placeAndMatch, hk]

lemma placeAndMatch_buy_none_eq (b : OrderBook) (o : Order) (now : ℤ)
    (hk : o.kind = .limit) (hs : o.side = .buy) (hopp : b.bestAsk = none) :
    b.placeAndMatch o now = ⟨b.add o, [], some o⟩ := by
  simp only [OrderBook.placeAndMatch, hk, hs, hopp]

lemma placeAndMatch_sell_none_eq (b : OrderBook) (o : Order) (now : ℤ)
    (hk : o.kind = .limit) (hs : o.side = .sell) (hopp : b.bestBid = none) :
    b.placeAndMatch o now = ⟨b.add o, [], some o⟩ := by
  simp only [OrderBook.placeAndMatch, hk, hs, hopp]

lemma placeAndMatch_buy_nocross_eq (b : OrderBook) (o : Order) (now : ℤ)
    (hk : o.kind = .limit) (hs : o.side = .buy) {bo : ℚ} (hopp : b.bestAsk = some bo)
    (hnc : ¬bo ≤ o.price) :
    b.placeAndMatch o now = ⟨b.add o, [], some o⟩ := by
  simp only [OrderBook.placeAndMatch, hk, hs, hopp]
  rw [if_neg]
  intro hcross
  rcases hcross with ⟨_, hc⟩ | ⟨hc, _⟩
  · exact hnc hc
  · exact Side.noConfusion hc

lemma placeAndMatch_sell_nocross_eq (b : OrderBook) (o : Order) (now : ℤ)
    (hk : o.kind = .limit) (hs : o.side = .sell) {bo : ℚ} (hopp : b.bestBid = some bo)
    (hnc : ¬o.price ≤ bo) :
    b.placeAndMatch o now = ⟨b.add o, [], some o⟩ := by
  simp only [OrderBook.placeAndMatch, hk, hs, hopp]
  rw [if_neg]
  intro hcross
  rcases hcross with ⟨hc, _⟩ | ⟨_, hc⟩
  · exact Side.noConfusion hc
  · exact hnc hc

lemma placeAndMatch_buy_cross_eq (b : OrderBook) (o : Order) (now : ℤ)
    (hk : o.kind = .limit) (hs : o.side = .buy) {bo : ℚ} (hopp : b.bestAsk = some bo)
    (hc : bo ≤ o.price) :
    b.placeAndMatch o now =
      if o.size - (b.executeMarket .buy o.size now).filled > epsRest then
        ⟨(b.executeMarket .buy o.size now).book.add
            { o with size := o.size - (b.executeMarket .buy o.size now).filled },
          (b.executeMarket .buy o.size now).trades,
          some { o with size := o.size - (b.executeMarket .buy o.size now).filled }⟩
      else ⟨(b.executeMarket .buy o.size now).book,
        (b.executeMarket .buy o.size now).trades, none⟩ := by
  simp only [OrderBook.placeAndMatch, hk, hs, hopp]
  rw [if_pos (Or.inl ⟨trivial, hc⟩)]

lemma placeAndMatch_sell_cross_eq (b : OrderBook) (o : Order) (now : ℤ)
    (hk : o.kind = .limit) (hs : o.side = .sell) {bo : ℚ} (hopp : b.bestBid = some bo)
    (hc : o.price ≤ bo) :
    b.placeAndMatch o now =
      if o.size - (b.executeMarket .sell o.size now).filled > epsRest then
        ⟨(b.executeMarket .sell o.size now).book.add
            { o with size := o.size - (b.executeMarket .sell o.size now).filled },
          (b.executeMarket .sell o.size now).trades,
          some { o with size := o.size - (b.executeMarket .sell o.size now).filled }⟩
      else ⟨(b.executeMarket .sell o.size now).book,
        (b.executeMarket .sell o.size now).trades, none⟩ := by
  simp only [OrderBook.placeAndMatch, hk, hs, hopp]
  rw [if_pos (Or.inr ⟨trivial, hc⟩)]

lemma uncrossed_add_buy (b : OrderBook) (o : Order) (hs : o.side = .buy)
    (halign : roundTick o.price = o.price)
    (hcond : ∀ bo, b.bestAsk = some bo → o.price < bo)
    (h : UncrossedP b) : UncrossedP (b.add o) := by
  intro x y hx hy
  rw [OrderBook.bestAsk, add_buy_asks b o hs] at hy
  rw [OrderBook.bestBid, add_buy_bids b o hs] at hx
  have hxk := listMax_mem hx
  rcases mem_keys_mset hxk with hmem | hxeq
  · obtain ⟨x0, hx0⟩ := listMax_isSome (List.ne_nil_of_mem hmem)
    have h1 := h x0 y hx0 hy
    have h2 : x ≤ x0 := le_listMax hx0 hmem
    linarith
  · rw [hxeq, halign]
    exact hcond y hy

lemma uncrossed_add_sell (b : OrderBook) (o : Order) (hs : o.side = .sell)
    (halign : roundTick o.price = o.price)
    (hcond : ∀ bo, b.bestBid = some bo → bo < o.price)
    (h : UncrossedP b) : UncrossedP (b.add o) := by
  intro x y hx hy
  rw [OrderBook.bestBid, add_sell_bids b o hs] at hx
  rw [OrderBook.bestAsk, add_sell_asks b o hs] at hy
  have hyk := listMin_mem hy
  rcases mem_keys_mset hyk with hmem | hyeq
  · obtain ⟨y0, hy0⟩ := listMin_isSome (List.ne_nil_of_mem hmem)
    have h1 := h x y0 hx hy0
    have h2 : y0 ≤ y := listMin_le hy0 hmem
    linarith
  · rw [hyeq, halign]
    exact hcond x hx

lemma uncrossed_place (b : OrderBook) (o : Order) (now : ℤ)
    (hal : o.kind = .limit → roundTick o.price = o.price)
    (h : UncrossedP b) : UncrossedP (b.placeAndMatch o now).book := by
  cases hk : o.kind with
  | market =>
    rw [placeAndMatch_market_eq b o now hk]
    exact uncrossed_exec b o.side o.size now h
  | limit =>
    have halign := hal hk
    cases hs : o.side with
    | buy =>
      cases hopp : b.bestAsk with
      | none =>
        rw [placeAndMatch_buy_none_eq b o now hk hs hopp]
        refine uncrossed_add_buy b o hs halign ?_ h
        intro bo hbo
        rw [hopp] at hbo
        cases hbo
      | some bo =>
        by_cases hc : bo ≤ o.price
        · rw [placeAndMatch_buy_cross_eq b o now hk hs hopp hc]
          by_cases hrem : o.size - (b.executeMarket .buy o.size now).filled > epsRest
          · rw [if_pos hrem]
            dsimp only
            have hasks : (b.executeMarket .buy o.size now).book.asks = [] :=
              executeMarket_buy_empty_of_unfilled b o.size now
                (by have := epsRest_pos; linarith)
            refine uncrossed_add_buy _ _ hs halign ?_
              (uncrossed_exec b .buy o.size now h)
            intro bo2 hbo2
            rw [OrderBook.bestAsk, hasks] at hbo2
            cases hbo2
          · rw [if_neg hrem]
            exact uncrossed_exec b .buy o.size now h
        · rw [placeAndMatch_buy_nocross_eq b o now hk hs hopp hc]
          refine uncrossed_add_buy b o hs halign ?_ h
          intro bo2 hbo2
          rw [hopp] at hbo2
          injection hbo2 with hbo2
          rw [← hbo2]
          exact not_le.mp hc
    | sell =>
      cases hopp : b.bestBid with
      | none =>
        rw [placeAndMatch_sell_none_eq b o now hk hs hopp]
        refine uncrossed_add_sell b o hs halign ?_ h
        intro bo hbo
        rw [hopp] at hbo
        cases hbo
      | some bo =>
        by_cases hc : o.price ≤ bo
        · rw [placeAndMatch_sell_cross_eq b o now hk hs hopp hc]
          by_cases hrem : o.size - (b.executeMarket .sell o.size now).filled > epsRest
          · rw [if_pos hrem]
            dsimp only
            have hbids : (b.executeMarket .sell o.size now).book.bids = [] :=
              executeMarket_sell_empty_of_unfilled b o.size now
                (by have := epsRest_pos; linarith)
            refine uncrossed_add_sell _ _ hs halign ?_
              (uncrossed_exec b .sell o.size now h)
            intro bo2 hbo2
            rw [OrderBook.bestBid, hbids] at hbo2
            cases hbo2
          · rw [if_neg hrem]
            exact uncrossed_exec b .sell o.size now h
        · rw [placeAndMatch_sell_nocross_eq b o now hk hs hopp hc]
          refine uncrossed_add_sell b o hs halign ?_ h
          intro bo2 hbo2
          rw [hopp] at hbo2
          injection hbo2 with hbo2
          rw [← hbo2]
          exact not_le.mp hc

lemma uncrossed_applyOps (ops : List Order)
    (hal : ∀ o ∈ ops, o.kind = .limit → roundTick o.price = o.price) :
    ∀ b : OrderBook, UncrossedP b → UncrossedP (applyOps b ops) := by
  induction ops with
  | nil => intro b h; exact h
  | cons o rest ih =>
    intro b h
    rw [applyOps, List.foldl_cons]
    exact ih (fun x hx => hal x (List.mem_cons_of_mem _ hx))
      ((b.placeAndMatch o o.time).book)
      (uncrossed_place b o o.time (hal o (List.mem_cons_self _ _)) h)

/-! ### Cash accounting helpers for the account layer -/

/-- The cash movement of a single fill: debited for a buy, credited for a
sell; every branch of the source's fill loop moves cash by exactly
`fillPrice * fillSize` in this direction. -/
def cashDelta (side : Side) (f : Trade) : ℚ :=
  match side with
  | .buy => -(f.price * f.size)
  | .sell => f.price * f.size

lemma applyFill_cash (side : Side) (a : Account) (f : Trade) :
    (applyFill side a f).cash = a.cash + cashDelta side f := by
  cases side with
  | buy =>
    simp only [applyFill, cashDelta]
    by_cases h1 : a.position ≥ 0
    · rw [if_pos h1]
      ring
    · rw [if_neg h1]
      by_cases h2 : f.size - min f.size (-a.position) > 0
      · rw [if_pos h2]
        dsimp only
        ring
      · rw [if_neg h2]
        dsimp only
        have hmin : min f.size (-a.position) = f.size := by
          have h3 := min_le_left f.size (-a.position)
          push_neg at h2
          linarith
        rw [hmin]
        ring
  | sell =>
    simp only [applyFill, cashDelta]
    by_cases h1 : a.position ≤ 0
    · rw [if_pos h1]
      by_cases h2 : a.position < 0
      · rw [if_pos h2]
      · rw [if_neg h2]
    · rw [if_neg h1]
      by_cases h2 : f.size - min f.size a.position > 0
      · rw [if_pos h2]
        dsimp only
        ring
      · rw [if_neg h2]
        dsimp only
        have hmin : min f.size a.position = f.size := by
          have h3 := min_le_left f.size a.position
          push_neg at h2
          linarith
        rw [hmin]

lemma foldl_applyFill_cash (side : Side) :
    ∀ (fills : List Trade) (a : Account),
      (fills.foldl (applyFill side) a).cash =
        a.cash + ((fills.map (cashDelta side)).sum) := by
  intro fills
  induction fills with
  | nil => intro a; simp
  | cons f rest ih =>
    intro a
    rw [List.foldl_cons, ih (applyFill side a f), applyFill_cash]
    simp only [List.map_cons, List.sum_cons]
    ring

lemma fillPosition_cash (side : Side) (fills : List Trade) (a : Account) :
    (fillPosition side fills a).cash = a.cash + ((fills.map (cashDelta side)).sum) := by
  unfold fillPosition
  by_cases h : fills = []
  · rw [if_pos h, h]
    simp
  · rw [if_neg h]
    dsimp only
    split_ifs with h2
    · exact foldl_applyFill_cash side fills a
    · exact foldl_applyFill_cash side fills a

/-! ### Claim theorems -/

/-- C1: the claim states that a single fill applied to a flat account opens
a position with `averageEntryPrice` equal to the fill price for both sides.
The code's sell-from-flat branch (`newPos -= f.size; newAvg = -newAvg`)
instead leaves `averageEntryPrice = 0`: selling 1 unit at price 10 from a
flat account produces `position = -1` with `averageEntryPrice = 0`, not 10.
This theorem evaluates `fillPosition` at that failing input, exhibiting the
divergence from the spec's cost-basis invariant (the buy direction does
satisfy the claim; the sell direction is the code bug). -/
theorem C1_flat_sell_opens_short_with_zero_avg :
    (fillPosition .sell [⟨0, 10, 1, .sell⟩] ⟨0, 0, 0, 0⟩).position = -1 ∧
    (fillPosition .sell [⟨0, 10, 1, .sell⟩] ⟨0, 0, 0, 0⟩).avgPrice = 0 ∧
    (fillPosition .sell [⟨0, 10, 1, .sell⟩] ⟨0, 0, 0, 0⟩).avgPrice ≠ 10 := by
  refine ⟨?_, ?_, ?_⟩ <;>
    · rw [fillPosition, if_neg (by simp)]
      norm_num [applyFill, epsRest]

/-- C7: flip correctness.  Starting long 5 at average price 10 with cash 0
and no realized PnL, a single sell fill of size 8 at price 12 yields
position −3, average entry price 12, realized PnL increased by exactly
(12−10)·5 = 10 (and cash credited 12·8 = 96). -/
theorem C7_flip_correctness :
    fillPosition .sell [⟨0, 12, 8, .sell⟩] ⟨0, 5, 10, 0⟩ = ⟨96, -3, 12, 10⟩ := by
  rw [fillPosition, if_neg (by simp)]
  norm_num [applyFill, epsRest]

/-- C3 counterexample: realized PnL is NOT independent of the order of a
same-side fill batch.  Starting short 10 at average 5, the buy batch
{10 @ 4, 10 @ 6} realizes +10 in one order and −10 in the other (the fill
processed first closes the short; the second opens a long and realizes
nothing), refuting the claim that final realizedPnL is permutation
invariant. -/
theorem C3_realized_depends_on_fill_order :
    ([⟨0, 4, 10, .buy⟩, ⟨0, 6, 10, .buy⟩] : List Trade).Perm
      [⟨0, 6, 10, .buy⟩, ⟨0, 4, 10, .buy⟩] ∧
    (fillPosition .buy [⟨0, 4, 10, .buy⟩, ⟨0, 6, 10, .buy⟩] ⟨0, -10, 5, 0⟩).realized ≠
      (fillPosition .buy [⟨0, 6, 10, .buy⟩, ⟨0, 4, 10, .buy⟩] ⟨0, -10, 5, 0⟩).realized := by
  constructor
  · exact List.Perm.swap _ _ _
  · have h1 : (fillPosition .buy [⟨0, 4, 10, .buy⟩, ⟨0, 6, 10, .buy⟩]
        ⟨0, -10, 5, 0⟩).realized = 10 := by
      rw [fillPosition, if_neg (by simp)]
      norm_num [applyFill, epsRest]
    have h2 : (fillPosition .buy [⟨0, 6, 10, .buy⟩, ⟨0, 4, 10, .buy⟩]
        ⟨0, -10, 5, 0⟩).realized = -10 := by
      rw [fillPosition, if_neg (by simp)]
      norm_num [applyFill, epsRest]
    rw [h1, h2]
    norm_num

/-- C3 (amended): of the two fields the claim names, only cash is
fill-order independent — for every starting account, side, and batch of
fills, any permutation of the batch yields the same final cash, because
every branch of the fill loop moves cash by exactly `price * size` per
fill.  (Realized PnL is order dependent, see the counterexample.) -/
theorem C3_cash_independent_of_fill_order (side : Side) (a : Account)
    (fills fills2 : List Trade) (h : fills.Perm fills2) :
    (fillPosition side fills a).cash = (fillPosition side fills2 a).cash := by
  rw [fillPosition_cash, fillPosition_cash, List.Perm.sum_eq (h.map (cashDelta side))]

/-- Witness for C3: the two concrete permuted batches of the counterexample
do agree on final cash. -/
theorem C3_cash_independent_of_fill_order_witness :
    (fillPosition .buy [⟨0, 4, 10, .buy⟩, ⟨0, 6, 10, .buy⟩] ⟨0, -10, 5, 0⟩).cash =
      (fillPosition .buy [⟨0, 6, 10, .buy⟩, ⟨0, 4, 10, .buy⟩] ⟨0, -10, 5, 0⟩).cash :=
  C3_cash_independent_of_fill_order .buy ⟨0, -10, 5, 0⟩ _ _ (List.Perm.swap _ _ _)

/-- C10: `executeMarket` never touches the aggressor's own side of the
book — a buy leaves the bid map identical, a sell leaves the ask map
identical (each level list and every resting order in it is unchanged). -/
theorem C10_executeMarket_frame (b : OrderBook) (size : ℚ) (now : ℤ) :
    (b.executeMarket .buy size now).book.bids = b.bids ∧
    (b.executeMarket .sell size now).book.asks = b.asks :=
  ⟨executeMarket_buy_bids b size now, executeMarket_sell_asks b size now⟩

/-- The resting sell orders of the price-protection scenario: asks at
10.00 and 11.00, one unit each. -/
def bookC9 : OrderBook :=
  ⟨[], [(10, [⟨"a", "sim", .sell, 10, 1, 0, .limit⟩]),
        (11, [⟨"b", "sim", .sell, 11, 1, 0, .limit⟩])]⟩

/-- A limit buy at 10.00 for 2 units: it crosses the best ask (10 ≥ 10). -/
def ordC9 : Order := ⟨"u", "you", .buy, 10, 2, 0, .limit⟩

/-- C9: a crossing limit order is not price protected.  With asks resting
at 10 and 11 (one unit each), a limit buy at 10 for 2 units crosses the
best ask and `placeAndMatch` fills it at BOTH levels — including a trade
at 11, strictly above the order's limit price — because the
`executeMarket` pass never bounds the level price by the limit price. -/
theorem C9_crossing_limit_not_price_protected :
    bookC9.bestAsk = some 10 ∧
    (bookC9.placeAndMatch ordC9 0).trades = [⟨0, 10, 1, .buy⟩, ⟨0, 11, 1, .buy⟩] ∧
    ∃ t ∈ (bookC9.placeAndMatch ordC9 0).trades, ordC9.price < t.price := by
  refine ⟨?_, ?_, ?_⟩
  · norm_num [OrderBook.bestAsk, bookC9, keys, listMin]
  · norm_num [OrderBook.placeAndMatch, ordC9, bookC9, OrderBook.bestAsk, OrderBook.bestBid,
      keys, listMin, listMax, OrderBook.executeMarket, sortAsc, List.insertionSort,
      List.orderedInsert, execLevels, execQueue, mget, mset, mdel, eps, epsRest,
      OrderBook.add]
  · refine ⟨⟨0, 11, 1, .buy⟩, ?_, by norm_num [ordC9]⟩
    have h : (bookC9.placeAndMatch ordC9 0).trades =
        [⟨0, 10, 1, .buy⟩, ⟨0, 11, 1, .buy⟩] := by
      norm_num [OrderBook.placeAndMatch, ordC9, bookC9, OrderBook.bestAsk, OrderBook.bestBid,
        keys, listMin, listMax, OrderBook.executeMarket, sortAsc, List.insertionSort,
        List.orderedInsert, execLevels, execQueue, mget, mset, mdel, eps, epsRest,
        OrderBook.add]
    rw [h]
    simp

/-- The side of the book an aggressor consumes:
`const book = side === "buy" ? this.asks : this.bids`. -/
def oppSide (b : OrderBook) (side : Side) : BookSide :=
  match side with
  | .buy => b.asks
  | .sell => b.bids

/-- C8: matching against an empty opposite book is not an error: it returns
`filled = 0`, `averageFillPrice = 0`, no trades, and leaves the book
unchanged.  In general `filled` equals the total traded size and, whenever
`filled > 0`, `averageFillPrice` is exactly the size-weighted mean of the
executed trade prices (total notional over total size); when nothing is
filled it is 0. -/
theorem C8_empty_book_and_average_price :
    (∀ (b : OrderBook) (size : ℚ) (now : ℤ), b.asks = [] →
      b.executeMarket .buy size now = ⟨b, [], 0, 0⟩) ∧
    (∀ (b : OrderBook) (size : ℚ) (now : ℤ), b.bids = [] →
      b.executeMarket .sell size now = ⟨b, [], 0, 0⟩) ∧
    (∀ (b : OrderBook) (side : Side) (size : ℚ) (now : ℤ),
      (b.executeMarket side size now).filled =
        (((b.executeMarket side size now).trades).map Trade.size).sum ∧
      (0 < (b.executeMarket side size now).filled →
        (b.executeMarket side size now).avgPrice =
          (((b.executeMarket side size now).trades).map (fun t => t.price * t.size)).sum /
            (((b.executeMarket side size now).trades).map Trade.size).sum) ∧
      ((b.executeMarket side size now).filled = 0 →
        (b.executeMarket side size now).avgPrice = 0)) := by
  refine ⟨?_, ?_, ?_⟩
  · intro b size now h
    have h1 : execLevels .buy now (sortAsc (keys b.asks)) b.asks size =
        (b.asks, size, 0, []) := by
      rw [h]; rfl
    rw [executeMarket_buy_eq b size now h1]
    simp
  · intro b size now h
    have h1 : execLevels .sell now (sortDesc (keys b.bids)) b.bids size =
        (b.bids, size, 0, []) := by
      rw [h]; rfl
    rw [executeMarket_sell_eq b size now h1]
    simp
  · intro b side size now
    cases side with
    | buy =>
      rcases hL : execLevels .buy now (sortAsc (keys b.asks)) b.asks size with ⟨m2, r, n, ts⟩
      have hs := execLevels_sizes .buy now (sortAsc (keys b.asks)) b.asks size
      rw [hL] at hs
      dsimp only at hs
      have hn := execLevels_notional .buy now (sortAsc (keys b.asks)) b.asks size
      rw [hL] at hn
      dsimp only at hn
      rw [executeMarket_buy_eq b size now hL]
      dsimp only
      refine ⟨hs.symm, ?_, ?_⟩
      · intro hpos
        rw [if_pos hpos, hs, hn]
      · intro h0
        rw [h0]
        simp
    | sell =>
      rcases hL : execLevels .sell now (sortDesc (keys b.bids)) b.bids size with ⟨m2, r, n, ts⟩
      have hs := execLevels_sizes .sell now (sortDesc (keys b.bids)) b.bids size
      rw [hL] at hs
      dsimp only at hs
      have hn := execLevels_notional .sell now (sortDesc (keys b.bids)) b.bids size
      rw [hL] at hn
      dsimp only at hn
      rw [executeMarket_sell_eq b size now hL]
      dsimp only
      refine ⟨hs.symm, ?_, ?_⟩
      · intro hpos
        rw [if_pos hpos, hs, hn]
      · intro h0
        rw [h0]
        simp

/-- Witness for C8: on a book whose ask side is empty, a market buy of
size 1 returns the untouched book, no trades, average price 0, filled 0;
and the general average-price identities hold at this concrete call. -/
theorem C8_empty_book_and_average_price_witness :
    (OrderBook.mk [(1, [])] []).executeMarket .buy 1 0 =
      ⟨⟨[(1, [])], []⟩, [], 0, 0⟩ :=
  C8_empty_book_and_average_price.1 ⟨[(1, [])], []⟩ 1 0 rfl

/-- A single resting ask of size 1 + 5·10⁻⁸ at price 10: consuming 1 unit
leaves a sub-epsilon remnant that `executeMarket` discards. -/
def bookC4 : OrderBook :=
  ⟨[], [(10, [⟨"a", "sim", .sell, 10, 1 + 1/20000000, 0, .limit⟩])]⟩

/-- C4 counterexample: the total resting size removed from the book does
NOT always equal `filled`.  A market buy of 1 against a resting ask of
size 1 + 5·10⁻⁸ fills exactly 1, but the leftover 5·10⁻⁸ is below the
`1e-7` epsilon, so the whole order (and its level) is removed: the book
loses 1 + 5·10⁻⁸ of resting size while `filled = 1`. -/
theorem C4_counterexample_dust_removed :
    (bookC4.executeMarket .buy 1 0).filled = 1 ∧
    sumSide bookC4.asks - sumSide (bookC4.executeMarket .buy 1 0).book.asks ≠
      (bookC4.executeMarket .buy 1 0).filled := by
  constructor <;>
    norm_num [bookC4, OrderBook.executeMarket, sortAsc, List.insertionSort,
      List.orderedInsert, keys, execLevels, execQueue, mget, mset, mdel, eps,
      sumSide, sumQ]

/-- C4 (amended): for a call with requested size ≥ 0 on a book side with
distinct price levels, `filled ≤ size`, and the total resting size removed
from the matched side equals `filled` plus the sub-epsilon dust discarded
when partially-consumed head orders drop below the `1e-7` threshold: the
discrepancy `D` satisfies `0 ≤ D ≤ 1e-7 · (number of trades)`, and is 0
exactly when no dust is discarded. -/
theorem C4_conservation_up_to_dust (b : OrderBook) (side : Side) (size : ℚ)
    (now : ℤ) (hsize : 0 ≤ size) (hnodup : (keys (oppSide b side)).Nodup) :
    (b.executeMarket side size now).filled ≤ size ∧
    ∃ D : ℚ, 0 ≤ D ∧ D ≤ eps * ((b.executeMarket side size now).trades).length ∧
      sumSide (oppSide b side) =
        sumSide (oppSide (b.executeMarket side size now).book side) +
          (b.executeMarket side size now).filled + D := by
  cases side with
  | buy =>
    dsimp only [oppSide] at hnodup
    rcases hL : execLevels .buy now (sortAsc (keys b.asks)) b.asks size with ⟨m2, r, n, ts⟩
    have h0 := execLevels_nonneg .buy now (sortAsc (keys b.asks)) b.asks size hsize
    rw [hL] at h0
    dsimp only at h0
    obtain ⟨D, hD, hD0, hDle⟩ :=
      execLevels_sumSide .buy now (sortAsc (keys b.asks)) b.asks size hnodup
    rw [hL] at hD hDle
    dsimp only at hD hDle
    rw [executeMarket_buy_eq b size now hL]
    dsimp only [oppSide]
    refine ⟨by linarith, D, hD0, hDle, by linarith⟩
  | sell =>
    dsimp only [oppSide] at hnodup
    rcases hL : execLevels .sell now (sortDesc (keys b.bids)) b.bids size with ⟨m2, r, n, ts⟩
    have h0 := execLevels_nonneg .sell now (sortDesc (keys b.bids)) b.bids size hsize
    rw [hL] at h0
    dsimp only at h0
    obtain ⟨D, hD, hD0, hDle⟩ :=
      execLevels_sumSide .sell now (sortDesc (keys b.bids)) b.bids size hnodup
    rw [hL] at hD hDle
    dsimp only at hD hDle
    rw [executeMarket_sell_eq b size now hL]
    dsimp only [oppSide]
    refine ⟨by linarith, D, hD0, hDle, by linarith⟩

/-- Witness for C4: on the counterexample book with requested size 2
(enough to exhaust the level), the amended conservation holds. -/
theorem C4_conservation_up_to_dust_witness :
    (bookC4.executeMarket .buy 2 0).filled ≤ 2 ∧
    ∃ D : ℚ, 0 ≤ D ∧ D ≤ eps * ((bookC4.executeMarket .buy 2 0).trades).length ∧
      sumSide (oppSide bookC4 .buy) =
        sumSide (oppSide (bookC4.executeMarket .buy 2 0).book .buy) +
          (bookC4.executeMarket .buy 2 0).filled + D :=
  C4_conservation_up_to_dust bookC4 .buy 2 0 (by norm_num)
    (by norm_num [bookC4, oppSide, keys])

lemma execQueue_cons_eq (side : Side) (px : ℚ) (now : ℤ) (head : Order)
    (rest : List Order) (remain : ℚ) (hr : ¬remain ≤ 0)
    (hshift : head.size - min remain head.size ≤ eps)
    {q : List Order} {r n : ℚ} {ts : List Trade}
    (hrec : execQueue side px now rest (remain - min remain head.size) = (q, r, n, ts)) :
    execQueue side px now (head :: rest) remain =
      (q, r, n + (min remain head.size) * px,
        ⟨now, px, min remain head.size, side⟩ :: ts) := by
  simp only [execQueue, if_neg hr, if_pos hshift, hrec]

/-- C5: price-time priority.  (i) A sell aggressor consumes bid levels in
descending price order: in the returned trade list every earlier trade's
price is ≥ every later trade's price, so a higher-priced resting bid is
always filled before a lower-priced one, regardless of submission time.
(ii) Dually, a buy aggressor's trade prices are non-decreasing.
(iii) FIFO within a level: with exactly two resting orders A then B at one
price and an aggressive buy of size exactly `A.size + B.size`, the first
trade fully fills A (size `A.size`) before B receives any fill, and the
level is exhausted. -/
theorem C5_price_time_priority :
    (∀ (b : OrderBook) (size : ℚ) (now : ℤ),
      ((b.executeMarket .sell size now).trades).Pairwise (fun t u => u.price ≤ t.price)) ∧
    (∀ (b : OrderBook) (size : ℚ) (now : ℤ),
      ((b.executeMarket .buy size now).trades).Pairwise (fun t u => t.price ≤ u.price)) ∧
    (∀ (p : ℚ) (A B : Order) (now : ℤ), 0 < A.size → 0 < B.size →
      ((OrderBook.mk [] [(p, [A, B])]).executeMarket .buy (A.size + B.size) now).trades =
        [⟨now, p, A.size, .buy⟩, ⟨now, p, B.size, .buy⟩] ∧
      ((OrderBook.mk [] [(p, [A, B])]).executeMarket .buy
          (A.size + B.size) now).book.asks = []) := by
  refine ⟨?_, ?_, ?_⟩
  · intro b size now
    rcases hL : execLevels .sell now (sortDesc (keys b.bids)) b.bids size with ⟨m2, r, n, ts⟩
    have hp := execLevels_pairwise .sell now (fun a c => c ≤ a) (fun x => le_refl x)
      (sortDesc (keys b.bids)) b.bids size (sortDesc_pairwise _)
    rw [hL] at hp
    rw [executeMarket_sell_eq b size now hL]
    exact hp
  · intro b size now
    rcases hL : execLevels .buy now (sortAsc (keys b.asks)) b.asks size with ⟨m2, r, n, ts⟩
    have hp := execLevels_pairwise .buy now (fun a c => a ≤ c) (fun x => le_refl x)
      (sortAsc (keys b.asks)) b.asks size (sortAsc_pairwise _)
    rw [hL] at hp
    rw [executeMarket_buy_eq b size now hL]
    exact hp
  · intro p A B now hA hB
    have e1 : A.size + B.size - A.size = B.size := by ring
    have hmin1 : min (A.size + B.size) A.size = A.size := min_eq_right (by linarith)
    have hq2 : execQueue .buy p now [B] B.size =
        ([], 0, 0 + B.size * p, [⟨now, p, B.size, .buy⟩]) := by
      have hrec : execQueue .buy p now [] (B.size - min B.size B.size) =
          ([], B.size - min B.size B.size, 0, []) := rfl
      have h := execQueue_cons_eq .buy p now B [] B.size (by linarith)
        (by rw [min_self]; norm_num [eps]) hrec
      rw [min_self, sub_self] at h
      exact h
    have hq1 : execQueue .buy p now [A, B] (A.size + B.size) =
        ([], 0, (0 + B.size * p) + A.size * p,
          [⟨now, p, A.size, .buy⟩, ⟨now, p, B.size, .buy⟩]) := by
      have hrec : execQueue .buy p now [B]
          (A.size + B.size - min (A.size + B.size) A.size) =
          ([], 0, 0 + B.size * p, [⟨now, p, B.size, .buy⟩]) := by
        rw [hmin1, e1]; exact hq2
      have h := execQueue_cons_eq .buy p now A [B] (A.size + B.size) (by linarith)
        (by rw [hmin1]; norm_num [eps]) hrec
      rw [hmin1] at h
      exact h
    have hg : (mget [(p, [A, B])] p).getD [] = [A, B] := by simp [mget]
    have hq1a : execQueue .buy p now ((mget [(p, [A, B])] p).getD [])
        (A.size + B.size) =
        ([], 0, (0 + B.size * p) + A.size * p,
          [⟨now, p, A.size, .buy⟩, ⟨now, p, B.size, .buy⟩]) := by
      rw [hg]; exact hq1
    have hdel : mdel [(p, [A, B])] p = [] := by simp [mdel]
    have hL0 : execLevels .buy now ([] : List ℚ)
        (if ([] : List Order).isEmpty then mdel [(p, [A, B])] p
          else mset [(p, [A, B])] p []) 0 =
        (mdel [(p, [A, B])] p, 0, 0, []) := rfl
    have hL1 := execLevels_cons_eq .buy now p [] [(p, [A, B])] (A.size + B.size)
      (by linarith) hq1a hL0
    rw [hdel] at hL1
    have hkeys : sortAsc (keys [(p, [A, B])]) = [p] := rfl
    have hM := executeMarket_buy_eq (OrderBook.mk [] [(p, [A, B])]) (A.size + B.size) now
      (hkeys ▸ hL1)
    rw [hM]
    exact ⟨rfl, rfl⟩

/-- Witness for C5: with resting asks A (size 2) then B (size 3) at price
10 and a market buy of 5, A is fully filled by the first trade before B
receives any fill, and the level empties. -/
theorem C5_price_time_priority_witness :
    ((OrderBook.mk [] [(10, [⟨"A", "sim", .sell, 10, 2, 0, .limit⟩,
        ⟨"B", "sim", .sell, 10, 3, 0, .limit⟩])]).executeMarket .buy
        ((⟨"A", "sim", .sell, 10, 2, 0, .limit⟩ : Order).size +
          (⟨"B", "sim", .sell, 10, 3, 0, .limit⟩ : Order).size) 0).trades =
      [⟨0, 10, (⟨"A", "sim", .sell, 10, 2, 0, .limit⟩ : Order).size, .buy⟩,
        ⟨0, 10, (⟨"B", "sim", .sell, 10, 3, 0, .limit⟩ : Order).size, .buy⟩] ∧
    ((OrderBook.mk [] [(10, [⟨"A", "sim", .sell, 10, 2, 0, .limit⟩,
        ⟨"B", "sim", .sell, 10, 3, 0, .limit⟩])]).executeMarket .buy
        ((⟨"A", "sim", .sell, 10, 2, 0, .limit⟩ : Order).size +
          (⟨"B", "sim", .sell, 10, 3, 0, .limit⟩ : Order).size) 0).book.asks = [] :=
  C5_price_time_priority.2.2 10 ⟨"A", "sim", .sell, 10, 2, 0, .limit⟩
    ⟨"B", "sim", .sell, 10, 3, 0, .limit⟩ 0 (by norm_num) (by norm_num)

/-- C6 (amended): order routing in `placeAndMatch`.  A market order always
routes through `executeMarket` and never rests (no order is added to the
book and `remaining` is `none`).  A limit order that crosses the best
opposing price (buy price ≥ best ask, sell price ≤ best bid) executes via
`executeMarket` for its full size; the unfilled remainder becomes a new
resting order and is returned as `remaining` only when it exceeds the
`1e-8` dust threshold — a sub-threshold remainder is discarded (this is
the one correction to the claim, which said "any unfilled remainder").
A limit order that does not cross rests immediately via `add` (appended
at the tail of its level) with no matching attempted. -/
theorem C6_routing_up_to_dust (b : OrderBook) (o : Order) (now : ℤ) :
    (o.kind = .market →
      b.placeAndMatch o now = ⟨(b.executeMarket o.side o.size now).book,
        (b.executeMarket o.side o.size now).trades, none⟩) ∧
    (∀ bo, o.kind = .limit → o.side = .buy → b.bestAsk = some bo → bo ≤ o.price →
      (epsRest < o.size - (b.executeMarket .buy o.size now).filled →
        b.placeAndMatch o now =
          ⟨(b.executeMarket .buy o.size now).book.add
              { o with size := o.size - (b.executeMarket .buy o.size now).filled },
            (b.executeMarket .buy o.size now).trades,
            some { o with size := o.size - (b.executeMarket .buy o.size now).filled }⟩) ∧
      (¬epsRest < o.size - (b.executeMarket .buy o.size now).filled →
        b.placeAndMatch o now = ⟨(b.executeMarket .buy o.size now).book,
          (b.executeMarket .buy o.size now).trades, none⟩)) ∧
    (∀ bo, o.kind = .limit → o.side = .sell → b.bestBid = some bo → o.price ≤ bo →
      (epsRest < o.size - (b.executeMarket .sell o.size now).filled →
        b.placeAndMatch o now =
          ⟨(b.executeMarket .sell o.size now).book.add
              { o with size := o.size - (b.executeMarket .sell o.size now).filled },
            (b.executeMarket .sell o.size now).trades,
            some { o with size := o.size - (b.executeMarket .sell o.size now).filled }⟩) ∧
      (¬epsRest < o.size - (b.executeMarket .sell o.size now).filled →
        b.placeAndMatch o now = ⟨(b.executeMarket .sell o.size now).book,
          (b.executeMarket .sell o.size now).trades, none⟩)) ∧
    (o.kind = .limit → o.side = .buy → (∀ bo, b.bestAsk = some bo → o.price < bo) →
      b.placeAndMatch o now = ⟨b.add o, [], some o⟩) ∧
    (o.kind = .limit → o.side = .sell → (∀ bo, b.bestBid = some bo → bo < o.price) →
      b.placeAndMatch o now = ⟨b.add o, [], some o⟩) := by
  refine ⟨?_, ?_, ?_, ?_, ?_⟩
  · intro hk
    exact placeAndMatch_market_eq b o now hk
  · intro bo hk hs hopp hc
    rw [placeAndMatch_buy_cross_eq b o now hk hs hopp hc]
    constructor
    · intro h
      rw [if_pos h]
    · intro h
      rw [if_neg h]
  · intro bo hk hs hopp hc
    rw [placeAndMatch_sell_cross_eq b o now hk hs hopp hc]
    constructor
    · intro h
      rw [if_pos h]
    · intro h
      rw [if_neg h]
  · intro hk hs hcond
    cases hopp : b.bestAsk with
    | none => exact placeAndMatch_buy_none_eq b o now hk hs hopp
    | some bo =>
      exact placeAndMatch_buy_nocross_eq b o now hk hs hopp (not_le.mpr (hcond bo hopp))
  · intro hk hs hcond
    cases hopp : b.bestBid with
    | none => exact placeAndMatch_sell_none_eq b o now hk hs hopp
    | some bo =>
      exact placeAndMatch_sell_nocross_eq b o now hk hs hopp (not_le.mpr (hcond bo hopp))

/-- A concrete market order, for the C6 witness. -/
def moC6 : Order := ⟨"m", "you", .buy, 0, 1, 0, .market⟩

/-- Witness for C6: a market buy on the empty book routes through
`executeMarket` and rests nothing. -/
theorem C6_routing_up_to_dust_witness :
    emptyBook.placeAndMatch moC6 0 =
      ⟨(emptyBook.executeMarket moC6.side moC6.size 0).book,
        (emptyBook.executeMarket moC6.side moC6.size 0).trades, none⟩ :=
  (C6_routing_up_to_dust emptyBook moC6 0).1 rfl

/-- A single resting ask of size 1 at price 10, for the C6 counterexample. -/
def bookC6 : OrderBook := ⟨[], [(10, [⟨"a", "sim", .sell, 10, 1, 0, .limit⟩])]⟩

/-- A crossing limit buy for 1 + 10⁻⁹ units at 10. -/
def ordC6 : Order := ⟨"u", "you", .buy, 10, 1 + 1/1000000000, 0, .limit⟩

/-- C6 counterexample: "any unfilled remainder becomes a new resting order
... returned as `remaining`" fails for dust.  The crossing buy of
1 + 10⁻⁹ fills only 1 (an unfilled remainder of 10⁻⁹ > 0 is left), yet
nothing rests on the bid side and `remaining = none`, because the
remainder is below the `1e-8` threshold. -/
theorem C6_counterexample_dust_remainder_discarded :
    (bookC6.executeMarket .buy ordC6.size 0).filled < ordC6.size ∧
    (bookC6.placeAndMatch ordC6 0).remaining = none ∧
    (bookC6.placeAndMatch ordC6 0).book.bids = [] := by
  refine ⟨?_, ?_, ?_⟩ <;>
    norm_num [bookC6, ordC6, OrderBook.placeAndMatch, OrderBook.executeMarket,
      OrderBook.bestAsk, OrderBook.bestBid, keys, listMin, listMax, sortAsc,
      List.insertionSort, List.orderedInsert, execLevels, execQueue, mget, mset,
      mdel, eps, epsRest, OrderBook.add]

/-- C2 counterexample: the claim quantifies over sequences of `add` and
`placeAndMatch` calls, but `add` performs no matching at all, so two adds
produce a crossed book: adding a limit buy at 10 and then a limit sell at
5 to the empty book leaves `bestBid = 10 > 5 = bestAsk`. -/
theorem C2_counterexample_add_crosses :
    ((emptyBook.add ⟨"b", "you", .buy, 10, 1, 0, .limit⟩).add
        ⟨"s", "you", .sell, 5, 1, 0, .limit⟩).bestBid = some 10 ∧
    ((emptyBook.add ⟨"b", "you", .buy, 10, 1, 0, .limit⟩).add
        ⟨"s", "you", .sell, 5, 1, 0, .limit⟩).bestAsk = some 5 ∧
    uncrossed ((emptyBook.add ⟨"b", "you", .buy, 10, 1, 0, .limit⟩).add
        ⟨"s", "you", .sell, 5, 1, 0, .limit⟩) = false := by
  refine ⟨?_, ?_, ?_⟩ <;>
    norm_num [emptyBook, OrderBook.add, roundTick, TICK, round_eq, mget, mset,
      keys, listMax, listMin, OrderBook.bestBid, OrderBook.bestAsk, uncrossed]

/-- C2 (amended): the no-crossed-book invariant holds for every sequence of
`placeAndMatch` calls on the initially empty book, provided each limit
order's price is already tick aligned (`roundTick` fixes it).  Both
restrictions are forced by the code: bare `add` performs no matching (see
the counterexample), and a non-aligned limit price that fails the crossing
test against the raw price can be rounded onto the opposing best when it
rests.  Under these conditions, whenever both a best bid and a best ask
exist, `bestBid < bestAsk`. -/
theorem C2_placeAndMatch_never_crosses (ops : List Order)
    (hal : ∀ o ∈ ops, o.kind = .limit → roundTick o.price = o.price) :
    uncrossed (applyOps emptyBook ops) = true := by
  rw [uncrossed_iff]
  refine uncrossed_applyOps ops hal emptyBook ?_
  intro x y hx hy
  simp [OrderBook.bestBid, emptyBook, keys, listMax] at hx

/-- Witness for C2: a one-order sequence (a tick-aligned limit buy at 1)
leaves the book uncrossed. -/
theorem C2_placeAndMatch_never_crosses_witness :
    uncrossed (applyOps emptyBook [⟨"w", "you", .buy, 1, 1, 0, .limit⟩]) = true :=
  C2_placeAndMatch_never_crosses [⟨"w", "you", .buy, 1, 1, 0, .limit⟩]
    (by
      intro o ho _
      have h : o = ⟨"w", "you", .buy, 1, 1, 0, .limit⟩ := by simpa using ho
      rw [h]
      norm_num [roundTick, TICK, round_eq])

end TradeSim
